import Mathlib

/-!
Verification of the goiter sequence-combinator library.

The Go source builds lazy integer sequences on top of unbuffered channels
(type Iter = receive-only chan int).  Each combinator spawns a goroutine that
pulls from its upstream channel and pushes to a fresh downstream channel.

This file contains two embeddings:

1. A functional embedding: for a finite upstream, the contents of a stage's
   output channel are a pure function of the contents of its input channel,
   obtained by translating each goroutine loop body into structural
   recursion over the list of values the upstream delivers before closing.
   The infinite source Seq is embedded as the stream of values it sends
   (fun i => i), and Take over such a stream is the corresponding
   bounded-recursion translation of the same loop.

2. A scheduled small-step embedding (further below): every stage of a
   pipeline is a node with an explicit program point, nodes are joined by
   synchronous (unbuffered) channels, and a schedule chooses which channel
   performs the next rendezvous.  This embedding settles the claims about
   consumption, termination/blocking and schedule-independence.
-/

namespace Goiter

/-- Translation of the Map goroutine body
(for x := range it { ch <- fn(x) }, then defer close):
the output channel carries fn of every input value, in order. -/
def Map : List Int → (Int → Int) → List Int
  | [], _ => []
  | x :: xs, fn => fn x :: Map xs fn

/-- Translation of the Filter goroutine body
(for x := range it { if pred(x) { ch <- x } }). -/
def Filter : List Int → (Int → Bool) → List Int
  | [], _ => []
  | x :: xs, pred => if pred x then x :: Filter xs pred else Filter xs pred

/-- Translation of the Reduce loop
(acc := init; for x := range it { acc = fn(acc, x) }; return acc). -/
def Reduce : List Int → Int → (Int → Int → Int) → Int
  | [], acc, _ => acc
  | x :: xs, acc, fn => Reduce xs (fn acc x) fn

/-- Translation of the Range goroutine body
(for i := from; i < to; i++ { ch <- i }, then defer close). -/
def rangeLoop (i stop : Int) : List Int :=
  if i < stop then i :: rangeLoop (i + 1) stop else []
termination_by (stop - i).toNat
decreasing_by simp_wf; omega

/-- Range(from, to) starts its loop at i = from. -/
def Range (lo hi : Int) : List Int := rangeLoop lo hi

/-- Stream of values sent by the Seq goroutine
(n := 0; for { ch <- n; n++ }): the i-th value sent is i. -/
def Seq (i : Nat) : Int := Int.ofNat i

/-- Translation of the Take goroutine body
(for x := range it { if count < n { ch <- x; count++ } else { break } })
with the count accumulator made explicit. -/
def takeLoop : List Int → Int → Int → List Int
  | [], _, _ => []
  | x :: xs, count, n => if count < n then x :: takeLoop xs (count + 1) n else []

/-- Take(it, n) starts its loop with count = 0. -/
def Take (it : List Int) (n : Int) : List Int := takeLoop it 0 n

/-- Same Take loop, additionally returning how many elements the loop
received from the upstream channel.  Each iteration of
"for x := range it" performs one receive before the body runs, so the
break branch has still consumed the element that triggered it. -/
def takeLoopC : List Int → Int → Int → List Int × Nat
  | [], _, _ => ([], 0)
  | x :: xs, count, n =>
    if count < n then
      ((x :: (takeLoopC xs (count + 1) n).1), (takeLoopC xs (count + 1) n).2 + 1)
    else ([], 1)

/-- Take with its upstream-consumption count, starting at count = 0. -/
def TakeC (it : List Int) (n : Int) : List Int × Nat := takeLoopC it 0 n

/-- Translation of the Take goroutine body when the upstream is a
never-closing producer delivering the stream s: the range-loop receives
s 0, s 1, s 2, ... and the body is unchanged. -/
def takeStreamLoop (s : Nat → Int) (idx : Nat) (count n : Int) : List Int :=
  if count < n then s idx :: takeStreamLoop s (idx + 1) (count + 1) n else []
termination_by (n - count).toNat
decreasing_by simp_wf; omega

/-- Seq().Take(n): the Take loop run over the Seq stream. -/
def TakeSeq (n : Int) : List Int := takeStreamLoop Seq 0 0 n

/-- Translation of the Drop goroutine body
(for x := range it { if count < n { count++ } else { ch <- x } }). -/
def dropLoop : List Int → Int → Int → List Int
  | [], _, _ => []
  | x :: xs, count, n =>
    if count < n then dropLoop xs (count + 1) n else x :: dropLoop xs count n

/-- Drop(it, n) starts its loop with count = 0. -/
def Drop (it : List Int) (n : Int) : List Int := dropLoop it 0 n

/-- Translation of the Collect loop
(var s []int; for x := range it { s = append(s, x) }; return s). -/
def collectLoop : List Int → List Int → List Int
  | [], s => s
  | x :: xs, s => collectLoop xs (s ++ [x])

/-- Collect starts from the empty (nil) slice. -/
def Collect (it : List Int) : List Int := collectLoop it []

/-- Translation of the isPrime helper from main.go
(for i := 2; i*i <= n; i++ { if n%i == 0 { return false } }; return true).
Go's % agrees with Int.emod on the test "% i == 0" since both are zero
exactly when i divides n. -/
def isPrimeLoop (n i : Int) : Bool :=
  if i * i ≤ n then
    if n % i = 0 then false else isPrimeLoop n (i + 1)
  else true
termination_by (n + 1 - i).toNat
decreasing_by simp_wf; nlinarith [sq_nonneg i]

/-- Declaration of isPrime: the loop starts at i = 2. -/
def isPrime (n : Int) : Bool := isPrimeLoop n 2

/-- Primality as the specification words it: n > 1 and no integer in
[2, floor(sqrt(n))] divides n evenly.  For i ≥ 2, membership of i in
[2, floor(sqrt n)] is equivalent to i * i ≤ n. -/
def specIsPrime (n : Int) : Prop :=
  1 < n ∧ ∀ i : Int, 2 ≤ i → i * i ≤ n → ¬ i ∣ n

/-! Basic lemmas relating the loop translations to Mathlib list functions. -/

theorem collectLoop_eq (it s : List Int) : collectLoop it s = s ++ it := by
  induction it generalizing s with
  | nil => simp [collectLoop]
  | cons x xs ih => simp [collectLoop, ih]

theorem Collect_eq (it : List Int) : Collect it = it := by
  simp [Collect, collectLoop_eq]

theorem Map_eq (it : List Int) (fn : Int → Int) : Map it fn = it.map fn := by
  induction it with
  | nil => rfl
  | cons x xs ih => simp [Map, ih]

theorem Filter_eq (it : List Int) (p : Int → Bool) : Filter it p = it.filter p := by
  induction it with
  | nil => rfl
  | cons x xs ih =>
    by_cases h : p x <;> simp [Filter, List.filter_cons, h, ih]

theorem Reduce_eq (it : List Int) (init : Int) (fn : Int → Int → Int) :
    Reduce it init fn = it.foldl fn init := by
  induction it generalizing init with
  | nil => rfl
  | cons x xs ih => simp [Reduce, List.foldl_cons, ih]

theorem takeLoop_eq (it : List Int) :
    ∀ count n : Int, takeLoop it count n = it.take (n - count).toNat := by
  induction it with
  | nil => intro count n; simp [takeLoop]
  | cons x xs ih =>
    intro count n
    by_cases h : count < n
    · have h1 : (n - count).toNat = (n - (count + 1)).toNat + 1 := by omega
      simp [takeLoop, h, ih, h1]
    · have h0 : (n - count).toNat = 0 := by omega
      simp [takeLoop, h, h0]

theorem Take_eq (it : List Int) (n : Int) : Take it n = it.take n.toNat := by
  have h := takeLoop_eq it 0 n
  simpa [Take] using h

theorem dropLoop_eq (it : List Int) :
    ∀ count n : Int, dropLoop it count n = it.drop (n - count).toNat := by
  induction it with
  | nil => intro count n; simp [dropLoop]
  | cons x xs ih =>
    intro count n
    by_cases h : count < n
    · have h1 : (n - count).toNat = (n - (count + 1)).toNat + 1 := by omega
      simp [dropLoop, h, ih, h1]
    · have h0 : (n - count).toNat = 0 := by omega
      simp [dropLoop, h, ih, h0]

theorem Drop_eq (it : List Int) (n : Int) : Drop it n = it.drop n.toNat := by
  have h := dropLoop_eq it 0 n
  simpa [Drop] using h

theorem takeLoopC_eq (it : List Int) :
    ∀ count n : Int,
      takeLoopC it count n =
        (it.take (n - count).toNat, min ((n - count).toNat + 1) it.length) := by
  induction it with
  | nil => intro count n; simp [takeLoopC]
  | cons x xs ih =>
    intro count n
    by_cases h : count < n
    · have h1 : (n - count).toNat = (n - (count + 1)).toNat + 1 := by omega
      simp [takeLoopC, h, ih, h1]
      omega
    · have h0 : (n - count).toNat = 0 := by omega
      simp [takeLoopC, h, h0]

theorem TakeC_eq (it : List Int) (n : Int) :
    TakeC it n = (it.take n.toNat, min (n.toNat + 1) it.length) := by
  have h := takeLoopC_eq it 0 n
  simpa [TakeC] using h

theorem rangeLoop_eq :
    ∀ (fuel : Nat) (lo hi : Int), (hi - lo).toNat = fuel →
      rangeLoop lo hi = (List.range fuel).map (fun j : Nat => lo + j) := by
  intro fuel
  induction fuel with
  | zero =>
    intro lo hi h
    rw [rangeLoop]
    have : ¬ lo < hi := by omega
    simp [this]
  | succ k ih =>
    intro lo hi h
    rw [rangeLoop]
    have hlt : lo < hi := by omega
    have hk : (hi - (lo + 1)).toNat = k := by omega
    rw [if_pos hlt, ih (lo + 1) hi hk, List.range_succ_eq_map]
    simp [List.map_map, Function.comp]
    intro a _
    omega

theorem Range_eq (lo hi : Int) :
    Range lo hi = (List.range (hi - lo).toNat).map (fun j : Nat => lo + j) :=
  rangeLoop_eq (hi - lo).toNat lo hi rfl

theorem takeStreamLoop_eq (s : Nat → Int) :
    ∀ (fuel : Nat) (idx : Nat) (count n : Int), (n - count).toNat = fuel →
      takeStreamLoop s idx count n =
        (List.range fuel).map (fun j : Nat => s (idx + j)) := by
  intro fuel
  induction fuel with
  | zero =>
    intro idx count n h
    rw [takeStreamLoop]
    have : ¬ count < n := by omega
    simp [this]
  | succ k ih =>
    intro idx count n h
    rw [takeStreamLoop]
    have hlt : count < n := by omega
    have hk : (n - (count + 1)).toNat = k := by omega
    rw [if_pos hlt, ih (idx + 1) (count + 1) n hk, List.range_succ_eq_map]
    simp [List.map_map, Function.comp]
    intro a _
    congr 1
    omega

theorem TakeSeq_eq (n : Int) :
    TakeSeq n = (List.range n.toNat).map (fun j : Nat => (j : Int)) := by
  have h := takeStreamLoop_eq Seq n.toNat 0 0 n (by omega)
  simpa [TakeSeq, Seq] using h

theorem le_of_mul_self_le {i n : Int} (h : i * i ≤ n) : i ≤ n := by
  rcases le_or_lt i 0 with hi | hi
  · have := mul_self_nonneg i
    omega
  · nlinarith

theorem isPrimeLoop_iff :
    ∀ (fuel : Nat) (n i : Int), 0 ≤ i → (n + 1 - i).toNat ≤ fuel →
      (isPrimeLoop n i = true ↔ ∀ j : Int, i ≤ j → j * j ≤ n → ¬ j ∣ n) := by
  intro fuel
  induction fuel with
  | zero =>
    intro n i _ h
    have hni : n < i := by omega
    have hloop : isPrimeLoop n i = true := by
      rw [isPrimeLoop]
      have : ¬ i * i ≤ n := fun hc => absurd (le_of_mul_self_le hc) (by omega)
      simp [this]
    constructor
    · intro _ j hij hjj
      exact absurd (le_of_mul_self_le hjj) (by omega)
    · intro _
      exact hloop
  | succ k ih =>
    intro n i hi h
    rw [isPrimeLoop]
    by_cases hsq : i * i ≤ n
    · have hin : i ≤ n := le_of_mul_self_le hsq
      rw [if_pos hsq]
      by_cases hmod : n % i = 0
      · have hdvd : i ∣ n := Int.dvd_of_emod_eq_zero hmod
        simp only [hmod, if_pos rfl]
        constructor
        · intro hfalse
          exact absurd hfalse (by simp)
        · intro hall
          exact absurd hdvd (hall i le_rfl hsq)
      · have hndvd : ¬ i ∣ n := fun hd => hmod (Int.emod_eq_zero_of_dvd hd)
        rw [if_neg hmod]
        rw [ih n (i + 1) (by omega) (by omega)]
        constructor
        · intro hall j hij hjj
          rcases eq_or_lt_of_le hij with rfl | hlt
          · exact hndvd
          · exact hall j (by omega) hjj
        · intro hall j hij hjj
          exact hall j (by omega) hjj
    · rw [if_neg hsq]
      constructor
      · intro _ j hij hjj
        have hij2 : i * i ≤ j * j := mul_self_le_mul_self hi hij
        exact absurd (le_trans hij2 hjj) hsq
      · intro _
        rfl

/-! Claim theorems over the functional embedding. -/

/-- Claim C1: for every finite sequence S and every n >= 0, Take(S,n).Collect()
returns exactly the first min(n, len(S)) elements of S in order, and
Seq().Take(k).Collect() equals [0, 1, ..., k-1] for every k >= 0. -/
theorem take_collect_spec (S : List Int) (n k : Int) (hn : 0 ≤ n) (hk : 0 ≤ k) :
    Collect (Take S n) = S.take n.toNat ∧
    (Collect (Take S n)).length = min n.toNat S.length ∧
    Collect (TakeSeq k) = (List.range k.toNat).map (fun j : Nat => (j : Int)) := by
  refine ⟨by rw [Collect_eq, Take_eq], ?_, by rw [Collect_eq, TakeSeq_eq]⟩
  rw [Collect_eq, Take_eq, List.length_take]

/-- Witness for C1 at S = [10, 20, 30], n = 2, k = 3. -/
theorem take_collect_spec_witness :
    Collect (Take [10, 20, 30] 2) = [10, 20] ∧ Collect (TakeSeq 3) = [0, 1, 2] := by
  have h := take_collect_spec [10, 20, 30] 2 3 (by norm_num) (by norm_num)
  exact ⟨h.1.trans (by decide), h.2.2.trans (by decide)⟩

/-- Claim C2, counterexample: Take([5], 0) is claimed to produce an
immediately-closed output without consuming any element of the upstream, but
the loop "for x := range it" receives the element 5 before the n <= 0 test
breaks, so exactly one upstream element is consumed. -/
theorem take_consumption_cex : TakeC [5] 0 = ([], 1) ∧ (TakeC [5] 0).2 ≠ 0 := by
  decide

/-- Claim C2, amended: Take(S, n) emits exactly the first min(n, len S)
elements of S in order and then closes, but it additionally pulls one element
of S beyond those emitted whenever one exists: the number of upstream
elements consumed is min(n.toNat + 1, len S), in particular one element (not
zero) for n <= 0 on a nonempty upstream. -/
theorem take_emits_and_consumes (S : List Int) (n : Int) :
    (TakeC S n).1 = S.take n.toNat ∧
    (TakeC S n).2 = min (n.toNat + 1) S.length ∧
    (TakeC S n).1 = Take S n := by
  rw [TakeC_eq, Take_eq]
  exact ⟨rfl, rfl, rfl⟩

/-- Claim C3: Reduce(S, init, fn) equals the left fold of fn over the elements
of S starting from init. -/
theorem reduce_foldl_spec (S : List Int) (init : Int) (fn : Int → Int → Int) :
    Reduce S init fn = S.foldl fn init :=
  Reduce_eq S init fn

/-- Claim C4: Map(S, fn).Collect() has exactly the length of S and its i-th
element is fn applied to the i-th element of S, for every index i. -/
theorem map_collect_spec (S : List Int) (fn : Int → Int) :
    (Collect (Map S fn)).length = S.length ∧
    ∀ i : Nat, (Collect (Map S fn))[i]? = (S[i]?).map fn := by
  rw [Collect_eq, Map_eq]
  exact ⟨List.length_map S fn, fun i => List.getElem?_map fn S i⟩

/-- Claim C5: Filter(S, pred).Collect() is exactly the subsequence of S whose
elements satisfy pred, in their original relative order, and its length is at
most the length of S. -/
theorem filter_collect_spec (S : List Int) (pred : Int → Bool) :
    Collect (Filter S pred) = S.filter pred ∧
    (Collect (Filter S pred)).length ≤ S.length := by
  rw [Collect_eq, Filter_eq]
  exact ⟨rfl, List.length_filter_le pred S⟩

/-- Claim C6: Drop(S, n).Collect() equals S with its first n elements removed
(all of S removed when len S < n), its length is max(0, len S - n) for n >= 0,
and for n <= 0 Drop is an identity pass-through. -/
theorem drop_collect_spec (S : List Int) (n : Int) :
    Collect (Drop S n) = S.drop n.toNat ∧
    (0 ≤ n → ((Collect (Drop S n)).length : Int) = max 0 ((S.length : Int) - n)) ∧
    (n ≤ 0 → Collect (Drop S n) = S) := by
  refine ⟨by rw [Collect_eq, Drop_eq], ?_, ?_⟩
  · intro hn
    rw [Collect_eq, Drop_eq, List.length_drop]
    omega
  · intro hn
    rw [Collect_eq, Drop_eq]
    have h0 : n.toNat = 0 := by omega
    simp [h0]

/-- Witness for C6 at S = [1, 2, 3] with n = 2 and at S = [4, 5] with n = -1. -/
theorem drop_collect_spec_witness :
    ((Collect (Drop [1, 2, 3] 2)).length : Int) =
      max 0 ((([1, 2, 3] : List Int).length : Int) - 2) ∧
    Collect (Drop [4, 5] (-1)) = [4, 5] :=
  ⟨(drop_collect_spec [1, 2, 3] 2).2.1 (by norm_num),
   (drop_collect_spec [4, 5] (-1)).2.2 (by norm_num)⟩

/-- Claim C7: Range(a, b) produces exactly the integers a, a+1, ..., b-1 in
increasing order, and produces the empty sequence whenever a >= b. -/
theorem range_spec (a b : Int) :
    Range a b = (List.range (b - a).toNat).map (fun j : Nat => a + j) ∧
    (b ≤ a → Range a b = []) := by
  refine ⟨Range_eq a b, fun h => ?_⟩
  rw [Range_eq]
  have h0 : (b - a).toNat = 0 := by omega
  simp [h0]

/-- Witness for C7 at (1, 4) and at (3, 1). -/
theorem range_spec_witness : Range 1 4 = [1, 2, 3] ∧ Range 3 1 = [] :=
  ⟨(range_spec 1 4).1.trans (by decide), (range_spec 3 1).2 (by norm_num)⟩

/-- Claim C9, counterexample: the spec predicate requires isPrime(n) to be
true only when n > 1, but the code has no such guard: isPrime(1) returns true
because the loop condition 2*2 <= 1 fails immediately. -/
theorem isPrime_spec_cex : isPrime 1 = true ∧ ¬ specIsPrime 1 := by
  constructor
  · rw [isPrime, isPrimeLoop]
    norm_num
  · intro h
    exact absurd h.1 (by norm_num)

/-- Claim C9, amended: isPrime(n) returns true iff no integer i with 2 <= i
and i * i <= n (that is, no integer in [2, floor(sqrt n)] for n >= 0) divides
n evenly; the n > 1 condition of the claim is not checked by the code, which
therefore also returns true for every n <= 3, including 0, 1 and negatives. -/
theorem isPrime_trial_division_spec (n : Int) :
    isPrime n = true ↔ ∀ i : Int, 2 ≤ i → i * i ≤ n → ¬ i ∣ n :=
  isPrimeLoop_iff (n + 1 - 2).toNat n 2 (by norm_num) le_rfl

/-- Witness for C9's amended theorem at n = 7. -/
theorem isPrime_trial_division_spec_witness : isPrime 7 = true :=
  (isPrime_trial_division_spec 7).mpr (by
    intro i h1 h2
    have hi : i = 2 := by nlinarith
    subst hi
    omega)

/-!
Scheduled small-step embedding of channel pipelines.

A pipeline is a list of nodes: a source (the Range, Seq goroutine, or an
arbitrary finite producer), transform stages (the Map, Filter, Take, Drop
goroutines with their program point and counter made explicit), and a sink
that records the values the terminal operation (Reduce or Collect) receives
from its range-loop.  Node c sends to node c+1 over an unbuffered channel,
so the only events are synchronous rendezvous: either a value handoff, or
the consumer observing that its upstream channel is closed.  A schedule is
the list of channel indices at which events fire; step is a partial function
of the state and the chosen channel, so all scheduling nondeterminism of
the goroutine execution is captured by the choice of schedule.
-/

/-- Program point of a transform goroutine: waiting at the top of its
range-loop for the next upstream value, holding a value while blocked on its
downstream send, or exited (its deferred close has fired). -/
inductive Phase
  | recv
  | send (v : Int)
  | done
deriving Repr

/-- Code of a transform stage, with its captured callback or bound. -/
inductive StageCode
  | map (fn : Int → Int)
  | filter (pred : Int → Bool)
  | take (n : Int)
  | drop (n : Int)

/-- State of a source goroutine: Range holds its loop variable and bound,
Seq holds its counter, and fin models an arbitrary producer of a known
finite sequence by the list it has yet to send. -/
inductive Src
  | range (i stop : Int)
  | seq (n : Int)
  | fin (rem : List Int)
deriving Repr

/-- One node of a pipeline.  Transform stages carry the count variable of
Take and Drop (0 and unused for Map and Filter).  The sink records the
values received so far and whether its range-loop has observed the upstream
close; Reduce and Collect are both functions of that received trace. -/
inductive Node
  | src (s : Src)
  | stage (code : StageCode) (count : Int) (ph : Phase)
  | sink (tr : List Int) (fin : Bool)

/-- What a node offers on its output channel: a value it is blocked sending,
the closed signal, or nothing (it is itself waiting). -/
inductive OutStatus
  | ready (v : Int)
  | closed
  | notReady
deriving Repr

/-- Output offer of each node, read off the Go code: Range offers i while
i < stop and close afterwards; Seq always offers its counter; a finite
producer offers the head of what remains; a stage offers the value it is
sending, or close once its loop has exited; sinks produce nothing. -/
def out : Node → OutStatus
  | .src (.range i stop) => if i < stop then .ready i else .closed
  | .src (.seq n) => .ready n
  | .src (.fin []) => .closed
  | .src (.fin (x :: _)) => .ready x
  | .stage _ _ (.send v) => .ready v
  | .stage _ _ .done => .closed
  | .stage _ _ .recv => .notReady
  | .sink _ _ => .notReady

/-- Producer update when its offered value is taken: the source loop
advances, a stage returns to the top of its range-loop. -/
def advance : Node → Node
  | .src (.range i stop) => .src (.range (i + 1) stop)
  | .src (.seq n) => .src (.seq (n + 1))
  | .src (.fin rem) => .src (.fin rem.tail)
  | .stage code count _ => .stage code count .recv
  | .sink tr b => .sink tr b

/-- Consumer update on receiving value v, one case per loop body in the
source: Map sends fn v; Filter sends v only if pred v holds; Take sends and
bumps its count while count < n and otherwise breaks out of its loop
(closing its output) with v already consumed; Drop skips and bumps its count
while count < n and sends v afterwards; the sink appends v to its trace.
Nodes not blocked at a receive refuse the event. -/
def react : Node → Int → Option Node
  | .stage (.map fn) count .recv, v => some (.stage (.map fn) count (.send (fn v)))
  | .stage (.filter pred) count .recv, v =>
      if pred v then some (.stage (.filter pred) count (.send v))
      else some (.stage (.filter pred) count .recv)
  | .stage (.take n) count .recv, v =>
      if count < n then some (.stage (.take n) (count + 1) (.send v))
      else some (.stage (.take n) count .done)
  | .stage (.drop n) count .recv, v =>
      if count < n then some (.stage (.drop n) (count + 1) .recv)
      else some (.stage (.drop n) count (.send v))
  | .sink tr false, v => some (.sink (tr ++ [v]) false)
  | _, _ => none

/-- Consumer update on observing that its upstream closed: its range-loop
exits, so a stage runs its deferred close and a sink finishes. -/
def reactClose : Node → Option Node
  | .stage code count .recv => some (.stage code count .done)
  | .sink tr false => some (.sink tr true)
  | _ => none

/-- Rendezvous between a producer and the consumer of its channel: a value
handoff advances the producer and lets the consumer react; a close signal
leaves the (already finished) producer in place. -/
def handoff (p q : Node) : Option (Node × Node) :=
  match out p with
  | .ready v => (react q v).map (fun q2 => (advance p, q2))
  | .closed => (reactClose q).map (fun q2 => (p, q2))
  | .notReady => none

/-- One scheduled event: the channel between nodes c and c+1 fires, if both
ends are ready for a rendezvous. -/
def step (l : List Node) (c : Nat) : Option (List Node) :=
  match l[c]?, l[c + 1]? with
  | some p, some q =>
    (handoff p q).map (fun pq => (l.set c pq.1).set (c + 1) pq.2)
  | _, _ => none

/-- Run a schedule: fire the listed channels in order; the run is defined
only if every listed event is enabled when its turn comes. -/
def run (l : List Node) : List Nat → Option (List Node)
  | [] => some l
  | c :: r =>
    match step l c with
    | some l2 => run l2 r
    | none => none

/-- A state is terminal when no channel can fire: every goroutine is either
finished or permanently blocked. -/
def terminal (l : List Node) : Prop := ∀ c : Nat, step l c = none

/-- Initial state of the pipeline built from a source, a list of transform
stages and a terminal operation: every stage starts its loop waiting at its
first receive with count = 0, and the sink has received nothing. -/
def mkInit (s : Src) (ts : List StageCode) : List Node :=
  Node.src s :: (ts.map (fun code => Node.stage code 0 .recv) ++ [Node.sink [] false])

/-- Trace of values the terminal operation has received, read from the last
node of the pipeline. -/
def sinkTrace (l : List Node) : Option (List Int) :=
  match l.getLast? with
  | some (.sink tr _) => some tr
  | _ => none

/-- Whether the terminal operation has returned (its range-loop has seen the
upstream close). -/
def sinkDone (l : List Node) : Bool :=
  match l.getLast? with
  | some (.sink _ b) => b
  | _ => false

/-! Independence of scheduled events.  A node that accepts a rendezvous on
its input channel is blocked at a receive, so it offers nothing on its
output channel; hence two enabled events are never on adjacent channels, and
events on non-adjacent channels touch disjoint nodes and commute.  This is
the formal content of every channel having exactly one producer and one
consumer. -/

theorem react_out {q : Node} {v : Int} {q2 : Node} (h : react q v = some q2) :
    out q = OutStatus.notReady := by
  cases q with
  | src s => simp [react] at h
  | stage code count ph =>
    cases ph with
    | recv => rfl
    | send w => cases code <;> simp [react] at h
    | done => cases code <;> simp [react] at h
  | sink tr b =>
    cases b with
    | false => rfl
    | true => simp [react] at h

theorem reactClose_out {q q2 : Node} (h : reactClose q = some q2) :
    out q = OutStatus.notReady := by
  cases q with
  | src s => simp [reactClose] at h
  | stage code count ph =>
    cases ph with
    | recv => rfl
    | send w => simp [reactClose] at h
    | done => simp [reactClose] at h
  | sink tr b =>
    cases b with
    | false => rfl
    | true => simp [reactClose] at h

theorem handoff_snd_notReady {p q : Node} {pq : Node × Node}
    (h : handoff p q = some pq) : out q = OutStatus.notReady := by
  unfold handoff at h
  cases hout : out p with
  | ready v =>
    rw [hout] at h
    simp only [] at h
    cases hr : react q v with
    | none => rw [hr] at h; simp at h
    | some q2 => exact react_out hr
  | closed =>
    rw [hout] at h
    simp only [] at h
    cases hr : reactClose q with
    | none => rw [hr] at h; simp at h
    | some q2 => exact reactClose_out hr
  | notReady => rw [hout] at h; simp at h

theorem handoff_fst_ready {p q : Node} {pq : Node × Node}
    (h : handoff p q = some pq) : out p ≠ OutStatus.notReady := by
  intro hp
  unfold handoff at h
  rw [hp] at h
  simp at h

theorem step_inv {l : List Node} {c : Nat} {l2 : List Node}
    (h : step l c = some l2) :
    ∃ p q pq, l[c]? = some p ∧ l[c + 1]? = some q ∧ handoff p q = some pq ∧
      l2 = (l.set c pq.1).set (c + 1) pq.2 := by
  unfold step at h
  cases hp : l[c]? with
  | none => rw [hp] at h; simp at h
  | some p =>
    cases hq : l[c + 1]? with
    | none => rw [hp, hq] at h; simp at h
    | some q =>
      rw [hp, hq] at h
      simp only [] at h
      cases hh : handoff p q with
      | none => rw [hh] at h; simp at h
      | some pq =>
        rw [hh] at h
        simp at h
        exact ⟨p, q, pq, rfl, rfl, hh, h.symm⟩

theorem step_eq_of {l : List Node} {c : Nat} {p q : Node} {pq : Node × Node}
    (hp : l[c]? = some p) (hq : l[c + 1]? = some q)
    (hh : handoff p q = some pq) :
    step l c = some ((l.set c pq.1).set (c + 1) pq.2) := by
  unfold step
  rw [hp, hq]
  simp only []
  rw [hh]
  rfl

theorem step_none_right {l : List Node} {c : Nat} (h : l[c + 1]? = none) :
    step l c = none := by
  unfold step
  rw [h]
  cases l[c]? <;> rfl

theorem step_not_adjacent {l l1 l2 : List Node} {c : Nat}
    (h1 : step l c = some l1) (h2 : step l (c + 1) = some l2) : False := by
  obtain ⟨p, q, pq, hp, hq, hh, _⟩ := step_inv h1
  obtain ⟨p2, q2, pq2, hp2, hq2, hh2, _⟩ := step_inv h2
  rw [hq] at hp2
  injection hp2 with hp2
  subst hp2
  exact handoff_fst_ready hh2 (handoff_snd_notReady hh)

theorem set4_comm (l : List Node) {a b : Nat} (x y z w : Node)
    (h1 : a ≠ b) (h2 : a ≠ b + 1) (h3 : a + 1 ≠ b) :
    (((l.set a x).set (a + 1) y).set b z).set (b + 1) w
      = (((l.set b z).set (b + 1) w).set a x).set (a + 1) y := by
  have h4 : a + 1 ≠ b + 1 := by omega
  calc (((l.set a x).set (a + 1) y).set b z).set (b + 1) w
      = (((l.set a x).set b z).set (a + 1) y).set (b + 1) w := by
        rw [List.set_comm y z _ h3]
    _ = (((l.set b z).set a x).set (a + 1) y).set (b + 1) w := by
        rw [List.set_comm x z _ h1]
    _ = (((l.set b z).set a x).set (b + 1) w).set (a + 1) y := by
        rw [List.set_comm y w _ h4]
    _ = (((l.set b z).set (b + 1) w).set a x).set (a + 1) y := by
        rw [List.set_comm x w _ h2]

theorem step_diamond {l la lb : List Node} {a b : Nat} (hab : a ≠ b)
    (ha : step l a = some la) (hb : step l b = some lb) :
    ∃ m, step la b = some m ∧ step lb a = some m := by
  have hab1 : a + 1 ≠ b := fun h => step_not_adjacent ha (h ▸ hb)
  have hba1 : b + 1 ≠ a := fun h => step_not_adjacent hb (h ▸ ha)
  obtain ⟨p, q, pq, hp, hq, hh, hla⟩ := step_inv ha
  obtain ⟨p2, q2, pq2, hp2, hq2, hh2, hlb⟩ := step_inv hb
  have e1 : la[b]? = some p2 := by
    rw [hla, List.getElem?_set_ne (by omega), List.getElem?_set_ne (by omega)]
    exact hp2
  have e2 : la[b + 1]? = some q2 := by
    rw [hla, List.getElem?_set_ne (by omega), List.getElem?_set_ne (by omega)]
    exact hq2
  have e3 : lb[a]? = some p := by
    rw [hlb, List.getElem?_set_ne (by omega), List.getElem?_set_ne (by omega)]
    exact hp
  have e4 : lb[a + 1]? = some q := by
    rw [hlb, List.getElem?_set_ne (by omega), List.getElem?_set_ne (by omega)]
    exact hq
  refine ⟨(la.set b pq2.1).set (b + 1) pq2.2, step_eq_of e1 e2 hh2, ?_⟩
  rw [step_eq_of e3 e4 hh]
  congr 1
  rw [hla, hlb]
  exact (set4_comm l pq.1 pq.2 pq2.1 pq2.2 hab (by omega) hab1).symm

/-! Any two complete (terminal) runs from a common state agree: the stripped
event of one run can be commuted to the front of the other, so terminal
states are unique regardless of schedule. -/

theorem run_strip :
    ∀ (r : List Nat) (l l1 t : List Node) (a : Nat),
      step l a = some l1 → run l r = some t → terminal t →
      ∃ r2, run l1 r2 = some t := by
  intro r
  induction r with
  | nil =>
    intro l l1 t a ha hr ht
    simp [run] at hr
    subst hr
    rw [ht a] at ha
    exact absurd ha (by simp)
  | cons b r ih =>
    intro l l1 t a ha hr ht
    unfold run at hr
    cases hb : step l b with
    | none => rw [hb] at hr; simp at hr
    | some lb =>
      rw [hb] at hr
      simp at hr
      by_cases hab : a = b
      · subst hab
        rw [ha] at hb
        injection hb with hb
        subst hb
        exact ⟨r, hr⟩
      · obtain ⟨m, h1, h2⟩ := step_diamond hab ha hb
        obtain ⟨r3, hr3⟩ := ih lb m t a h2 hr ht
        refine ⟨b :: r3, ?_⟩
        unfold run
        rw [h1]
        exact hr3

theorem runs_unique :
    ∀ (r1 : List Nat) (l : List Node) (r2 : List Nat) (t1 t2 : List Node),
      run l r1 = some t1 → terminal t1 → run l r2 = some t2 → terminal t2 →
      t1 = t2 := by
  intro r1
  induction r1 with
  | nil =>
    intro l r2 t1 t2 h1 ht1 h2 ht2
    simp [run] at h1
    subst h1
    cases r2 with
    | nil => simp [run] at h2; exact h2
    | cons c r2 =>
      unfold run at h2
      rw [ht1 c] at h2
      simp at h2
  | cons a r1 ih =>
    intro l r2 t1 t2 h1 ht1 h2 ht2
    unfold run at h1
    cases ha : step l a with
    | none => rw [ha] at h1; simp at h1
    | some la =>
      rw [ha] at h1
      simp at h1
      obtain ⟨r3, hr3⟩ := run_strip r2 l la t2 a ha h2 ht2
      exact ih la r3 t1 t2 h1 ht1 hr3 ht2

/-! Termination and blocking of the terminal operations. -/

theorem pair_oob (a b : Node) (k : Nat) : ([a, b] : List Node)[k + 2]? = none := by
  apply List.getElem?_eq_none
  simp

theorem fin_drain :
    ∀ (rem acc : List Int), ∃ r : List Nat,
      run [Node.src (.fin rem), Node.sink acc false] r
        = some [Node.src (.fin []), Node.sink (acc ++ rem) true] := by
  intro rem
  induction rem with
  | nil =>
    intro acc
    refine ⟨[0], ?_⟩
    rw [List.append_nil]
    rfl
  | cons x xs ih =>
    intro acc
    obtain ⟨r, hr⟩ := ih (acc ++ [x])
    refine ⟨0 :: r, ?_⟩
    have hs : step [Node.src (.fin (x :: xs)), Node.sink acc false] 0
        = some [Node.src (.fin xs), Node.sink (acc ++ [x]) false] := rfl
    simp only [run, hs]
    rw [hr]
    simp

theorem terminal_fin_done (tr : List Int) :
    terminal [Node.src (.fin []), Node.sink tr true] := by
  intro c
  match c with
  | 0 => rfl
  | 1 => rfl
  | (k + 2) => exact step_none_right (pair_oob _ _ (k + 1))

theorem seq_run_shape :
    ∀ (r : List Nat) (n : Int) (tr : List Int) (t : List Node),
      run [Node.src (.seq n), Node.sink tr false] r = some t →
      ∃ n2 tr2, t = [Node.src (.seq n2), Node.sink tr2 false] := by
  intro r
  induction r with
  | nil =>
    intro n tr t h
    simp [run] at h
    exact ⟨n, tr, h.symm⟩
  | cons c r ih =>
    intro n tr t h
    match c with
    | 0 =>
      have hs : step [Node.src (.seq n), Node.sink tr false] 0
          = some [Node.src (.seq (n + 1)), Node.sink (tr ++ [n]) false] := rfl
      simp only [run, hs] at h
      exact ih (n + 1) (tr ++ [n]) t h
    | (k + 1) =>
      have hs : step [Node.src (.seq n), Node.sink tr false] (k + 1) = none :=
        step_none_right (pair_oob _ _ k)
      simp only [run, hs] at h
      exact absurd h (by simp)

/-- Claim C8: a terminal operation (the sink records what Reduce and Collect
receive: Collect returns exactly the received trace and Reduce folds it) on
an arbitrary finite sequence reaches, in finitely many events, a terminal
state in which it has returned with the whole sequence received; whereas on
the never-closing source Seq, under every schedule whatsoever the terminal
operation never returns and the pipeline is never terminal, i.e. the
consumer blocks forever.  This is a specified precondition, not a detected
error: no state of the semantics signals a failure. -/
theorem terminal_ops_spec (S : List Int) (r : List Nat) (t : List Node)
    (h : run (mkInit (.seq 0) []) r = some t) :
    (∃ r2 t2, run (mkInit (.fin S) []) r2 = some t2 ∧ terminal t2 ∧
      sinkTrace t2 = some S ∧ sinkDone t2 = true) ∧
    sinkDone t = false ∧ ¬ terminal t := by
  constructor
  · obtain ⟨r2, hr2⟩ := fin_drain S []
    exact ⟨r2, [Node.src (.fin []), Node.sink S true], hr2,
      terminal_fin_done S, rfl, rfl⟩
  · obtain ⟨n2, tr2, ht⟩ := seq_run_shape r 0 [] t h
    subst ht
    refine ⟨rfl, ?_⟩
    intro hterm
    have hs : step [Node.src (.seq n2), Node.sink tr2 false] 0
        = some [Node.src (.seq (n2 + 1)), Node.sink (tr2 ++ [n2]) false] := rfl
    rw [hterm 0] at hs
    exact absurd hs (by simp)

/-- Witness for C8: after the one-event schedule [0] from Seq() feeding a
terminal operation, the sink has received [0] and has not returned. -/
theorem terminal_ops_spec_witness :
    sinkDone [Node.src (.seq 1), Node.sink [0] false] = false ∧
    ¬ terminal [Node.src (.seq 1), Node.sink [0] false] :=
  (terminal_ops_spec [7] [0] [Node.src (.seq 1), Node.sink [0] false] rfl).2

/-- Claim C10: for a fixed source, fixed pure callbacks and any pipeline of
Map/Filter/Take/Drop stages feeding a terminal operation, any two complete
executions — runs of arbitrary schedules that reach a state where no
goroutine can take another step — end in identical states, and in particular
deliver identical received traces to the terminal operation.  Collect
returns exactly that trace and Reduce is a fold of it, so the observable
result is independent of goroutine scheduling. -/
theorem pipeline_deterministic (s : Src) (ts : List StageCode)
    (r1 r2 : List Nat) (t1 t2 : List Node)
    (h1 : run (mkInit s ts) r1 = some t1) (ht1 : terminal t1)
    (h2 : run (mkInit s ts) r2 = some t2) (ht2 : terminal t2) :
    t1 = t2 ∧ sinkTrace t1 = sinkTrace t2 := by
  have h := runs_unique r1 (mkInit s ts) r2 t1 t2 h1 ht1 h2 ht2
  exact ⟨h, by rw [h]⟩

/-- Doubling callback used in the determinism witness. -/
def doubleFn : Int → Int := fun x => x * 2

/-- Increment callback used in the determinism witness. -/
def incFn : Int → Int := fun x => x + 1

/-- Final state of the witness pipeline fin [5] |> Map double |> Map inc. -/
def demoFinal : List Node :=
  [Node.src (.fin []), Node.stage (.map doubleFn) 0 .done,
   Node.stage (.map incFn) 0 .done, Node.sink [11] true]

theorem demoFinal_terminal : terminal demoFinal := by
  intro c
  match c with
  | 0 => rfl
  | 1 => rfl
  | 2 => rfl
  | 3 => rfl
  | (k + 4) =>
    apply step_none_right
    apply List.getElem?_eq_none
    simp only [demoFinal, List.length_cons, List.length_nil]
    omega

/-- Witness for C10: two genuinely different schedules of the pipeline
fin [5] |> Map double |> Map inc |> sink give the same result. -/
theorem pipeline_deterministic_witness :
    run (mkInit (.fin [5]) [.map doubleFn, .map incFn]) [0, 1, 0, 2, 1, 2]
      = run (mkInit (.fin [5]) [.map doubleFn, .map incFn]) [0, 1, 2, 0, 1, 2] := by
  have h := pipeline_deterministic (.fin [5]) [.map doubleFn, .map incFn]
    [0, 1, 0, 2, 1, 2] [0, 1, 2, 0, 1, 2] demoFinal demoFinal
    rfl demoFinal_terminal rfl demoFinal_terminal
  show some demoFinal = some demoFinal
  exact congrArg some h.1

end Goiter
